import Mathlib

/-!
# Verification of RedisGraph's `execution_plan_modify.c`

A shallow embedding of the execution-plan editing and introspection layer
(`src/execution_plan/execution_plan_build/execution_plan_modify.c`) together
with proofs about the claims of the specification.

Two views of the operator tree are used, matching how the C code accesses it:

* a heap view (`Heap`): nodes addressed by `Nat` ids (modelling `OpBase *`
  pointers), each holding its `parent` back-pointer and ordered `children`
  id list.  The mutating operations (`ExecutionPlan_PushBelow`,
  `ExecutionPlan_RemoveOp`, `ExecutionPlan_NewRoot`) are state transformers
  on this heap; `ASSERT` failures are modelled by returning `none`.

* a tree view (`OpTree` / `Forest`): the read-only traversals
  (`ExecutionPlan_LocateOpResolvingAlias`, `ExecutionPlan_BoundVariables`,
  `ExecutionPlan_LocateReferencesExcludingOps`, `ExecutionPlan_LocateTaps`,
  `ExecutionPlan_BindPlanToOps`) only ever follow `children` pointers, so
  they are translated as structural recursions over an inductive tree.
  Each node carries an `id : Nat` modelling its pointer identity (used for
  the `root != recurse_limit` pointer comparison in the C code).

The `rax` string sets of the C code (insert-if-absent, remove-by-key
returning presence, size query) are modelled as `List String` used with
set semantics; the iteration order of a rax is irrelevant to every result
proved here, since keys are only ever removed as a batch.
-/

/-- Physical operator kinds (`OPType` in `ops.h`).  Only the kinds the file
inspects (`OPType_PROJECT`, `OPType_AGGREGATE`, `OPType_ARGUMENT`) matter;
the others stand for the remaining variants of the closed enumeration. -/
inductive OPType : Type where
  | SCAN
  | FILTER
  | PROJECT
  | AGGREGATE
  | ARGUMENT
  | CARTESIAN_PRODUCT
  | TRAVERSE
deriving DecidableEq

/- The operator tree (`OpBase` viewed through its `children` array).
`id` models the node's address, `ty` its `type` tag, `modifies` the array
of aliases the operator binds, `plan` the id of its owning `ExecutionPlan`.
`Forest` is the ordered children sequence (a specialised list, so that all
tree recursions below are structural and compute by `rfl`). -/
mutual
inductive OpTree : Type where
  | mk (id : Nat) (ty : OPType) (modifies : List String) (plan : Nat)
      (children : Forest)

inductive Forest : Type where
  | nil
  | cons (hd : OpTree) (tl : Forest)
end

deriving instance DecidableEq for OpTree
deriving instance DecidableEq for Forest

def OpTree.id : OpTree → Nat
  | .mk i _ _ _ _ => i

def OpTree.ty : OpTree → OPType
  | .mk _ t _ _ _ => t

def OpTree.modifies : OpTree → List String
  | .mk _ _ m _ _ => m

def OpTree.plan : OpTree → Nat
  | .mk _ _ _ p _ => p

def OpTree.children : OpTree → Forest
  | .mk _ _ _ _ cs => cs

def Forest.isNil : Forest → Bool
  | .nil => true
  | .cons _ _ => false

def Forest.toList : Forest → List OpTree
  | .nil => []
  | .cons c cs => c :: Forest.toList cs

/- Pre-order listing of all (sub)operators of a tree: node before children,
children left to right.  Used to state search/collection properties. -/
mutual
def preorder : OpTree → List OpTree
  | .mk i ty m pl cs => OpTree.mk i ty m pl cs :: preorderF cs

def preorderF : Forest → List OpTree
  | .nil => []
  | .cons c cs => preorder c ++ preorderF cs
end

/-- The ids of all operators of a tree, in pre-order. -/
def idsOf (t : OpTree) : List Nat := (preorder t).map OpTree.id

/-! ## The `rax` working-set container

Modelled as a `List String` with set semantics: `raxTryInsert` is
insert-if-absent, `raxRemove` is remove-by-key returning whether the key was
present, emptiness models `raxSize(...) == 0`. -/

def raxTryInsert (r : List String) (k : String) : List String :=
  if k ∈ r then r else r ++ [k]

def raxRemove (r : List String) (k : String) : List String × Bool :=
  if k ∈ r then (r.erase k, true) else (r, false)

/-- The reference-removal loop of `ExecutionPlan_LocateReferencesExcludingOps`
(lines 252-258 of the C file): attempt to `raxRemove` every name of `mods`
from `refs`, accumulating `refs_resolved |= ...`. -/
def removeRefs (mods : List String) (refs : List String) : List String × Bool :=
  mods.foldl
    (fun acc m =>
      let step := raxRemove acc.1 m
      (step.1, acc.2 || step.2))
    (refs, false)

/-! ## `ExecutionPlan_BoundVariables` (C lines 337-356)

Collect all aliases resolved by a tree of operations: add the node's own
`modifies`, then recurse into children — except that `OPType_PROJECT` and
`OPType_AGGREGATE` operations demarcate variable scopes: their projections
are collected but their children are not visited. -/

mutual
def ExecutionPlan_BoundVariables : OpTree → List String → List String
  | .mk _ ty mods _ cs, modifiers =>
    let modifiers := mods.foldl raxTryInsert modifiers
    if ty = OPType.PROJECT ∨ ty = OPType.AGGREGATE then modifiers
    else boundVariablesF cs modifiers

def boundVariablesF : Forest → List String → List String
  | .nil, modifiers => modifiers
  | .cons c cs, modifiers =>
    boundVariablesF cs (ExecutionPlan_BoundVariables c modifiers)
end

/-! ## `ExecutionPlan_LocateOpResolvingAlias` (C lines 165-183)

Return the current operation if any entry of its `modifies` array equals the
alias, otherwise search the children left to right, returning the first
subtree search that succeeds. -/

mutual
def ExecutionPlan_LocateOpResolvingAlias : OpTree → String → Option OpTree
  | .mk i ty mods pl cs, a =>
    if a ∈ mods then some (OpTree.mk i ty mods pl cs)
    else locateAliasF cs a

def locateAliasF : Forest → String → Option OpTree
  | .nil, _ => none
  | .cons c cs, a =>
    match ExecutionPlan_LocateOpResolvingAlias c a with
    | some op => some op
    | none => locateAliasF cs a
end

/-! ## `ExecutionPlan_LocateReferencesExcludingOps` (C lines 207-268)

`limit : Option Nat` models the `recurse_limit` pointer (`none` = `NULL`);
the pointer comparison `root != recurse_limit` becomes an id comparison.
`lreChildren` is the child loop (C lines 224-233): it carries the current
`resolving_op`, the working set, and the `all_refs_resolved` flag, which is
tested before each iteration and recomputed after each child visit.
The `dependency_count` variable of the C code is written but never read, so
it is not modelled. -/

mutual
def ExecutionPlan_LocateReferencesExcludingOps :
    OpTree → Option Nat → List OPType → List String → Option OpTree × List String
  | .mk i ty mods pl cs, limit, bl, refs =>
    let root := OpTree.mk i ty mods pl cs
    let blacklisted := ty ∈ bl
    let loopOut :=
      if ¬blacklisted ∧ limit ≠ some i then
        lreChildren root limit bl cs none refs false
      else (none, refs, false)
    if loopOut.2.2 then (loopOut.1, loopOut.2.1)
    else
      let ms := if blacklisted then ExecutionPlan_BoundVariables root [] else mods
      let afterSelf := removeRefs ms loopOut.2.1
      ((if afterSelf.2 then some root else loopOut.1), afterSelf.1)

def lreChildren :
    OpTree → Option Nat → List OPType → Forest → Option OpTree → List String →
      Bool → Option OpTree × List String × Bool
  | _, _, _, .nil, r, refs, flag => (r, refs, flag)
  | root, limit, bl, .cons c cs, r, refs, flag =>
    if flag then (r, refs, flag)
    else
      let visit := ExecutionPlan_LocateReferencesExcludingOps c limit bl refs
      lreChildren root limit bl cs
        (if r.isSome then some root else visit.1) visit.2 visit.2.isEmpty
end

/-- `ExecutionPlan_LocateReferences` (C lines 270-278): the degenerate case
with an empty blacklist. -/
def ExecutionPlan_LocateReferences (root : OpTree) (limit : Option Nat)
    (refs : List String) : Option OpTree × List String :=
  ExecutionPlan_LocateReferencesExcludingOps root limit [] refs

/-! ## `_ExecutionPlan_LocateTaps` / `ExecutionPlan_LocateTaps` (C 280-305)

Collect every childless operation that is not an `OPType_ARGUMENT` op,
appending in visit order. -/

mutual
def locateTapsAux : OpTree → List OpTree → List OpTree
  | .mk i ty mods pl cs, taps =>
    let taps :=
      if cs.isNil = true ∧ ty ≠ OPType.ARGUMENT then
        taps ++ [OpTree.mk i ty mods pl cs]
      else taps
    locateTapsF cs taps

def locateTapsF : Forest → List OpTree → List OpTree
  | .nil, taps => taps
  | .cons c cs, taps => locateTapsF cs (locateTapsAux c taps)
end

def ExecutionPlan_LocateTaps (root : OpTree) : List OpTree :=
  locateTapsAux root []

/-! ## `ExecutionPlan_BindPlanToOps` (C lines 358-368)

Plans are represented by their id; `qg : Nat → List Nat` maps each plan id
to its query graph, a set of graph-entity ids. -/

/-- Modelled from the spec: `QueryGraph_MergeGraphs(dst, src)` is declared in
this repository but its definition is not under `src/`; §6 of the spec
describes it as an idempotent union of entities by identity — entities
already present are unified, not duplicated. -/
def QueryGraph_MergeGraphs (dst src : List Nat) : List Nat :=
  dst ++ src.filter (fun e => e ∉ dst)

mutual
def ExecutionPlan_BindPlanToOps :
    (Nat → List Nat) → Nat → OpTree → (Nat → List Nat) × OpTree
  | qg, tp, .mk i ty mods pl cs =>
    -- migrate the old owning plan's QueryGraph entities to the master plan
    let qg1 := Function.update qg tp (QueryGraph_MergeGraphs (qg tp) (qg pl))
    let rec1 := bindPlanToOpsF qg1 tp cs
    (rec1.1, OpTree.mk i ty mods tp rec1.2)

def bindPlanToOpsF :
    (Nat → List Nat) → Nat → Forest → (Nat → List Nat) × Forest
  | qg, _, .nil => (qg, Forest.nil)
  | qg, tp, .cons c cs =>
    let rec1 := ExecutionPlan_BindPlanToOps qg tp c
    let rec2 := bindPlanToOpsF rec1.1 tp cs
    (rec2.1, Forest.cons rec1.2 rec2.2)
end

/-! ## Instrumented reference search

`lreTraced` mirrors `ExecutionPlan_LocateReferencesExcludingOps` exactly,
additionally recording the id of every operation on which the function is
invoked (in invocation order).  It is used to settle the claim that an empty
working set prevents any node from being visited. -/

mutual
def lreTraced :
    OpTree → Option Nat → List OPType → List String →
      (Option OpTree × List String) × List Nat
  | .mk i ty mods pl cs, limit, bl, refs =>
    let root := OpTree.mk i ty mods pl cs
    let blacklisted := ty ∈ bl
    let loopOut :=
      if ¬blacklisted ∧ limit ≠ some i then
        lreTracedF root limit bl cs none refs false
      else ((none, refs, false), [])
    let visited := i :: loopOut.2
    if loopOut.1.2.2 then ((loopOut.1.1, loopOut.1.2.1), visited)
    else
      let ms := if blacklisted then ExecutionPlan_BoundVariables root [] else mods
      let afterSelf := removeRefs ms loopOut.1.2.1
      (((if afterSelf.2 then some root else loopOut.1.1), afterSelf.1), visited)

def lreTracedF :
    OpTree → Option Nat → List OPType → Forest → Option OpTree → List String →
      Bool → (Option OpTree × List String × Bool) × List Nat
  | _, _, _, .nil, r, refs, flag => ((r, refs, flag), [])
  | root, limit, bl, .cons c cs, r, refs, flag =>
    if flag then ((r, refs, flag), [])
    else
      let visit := lreTraced c limit bl refs
      let rest := lreTracedF root limit bl cs
        (if r.isSome then some root else visit.1.1) visit.1.2 visit.1.2.isEmpty
      (rest.1, visit.2 ++ rest.2)
end

/-! ## Specification-side characterisations -/

/- Specification-side: `bindsVisible t x` holds when some operator of the
tree binds `x` and is reachable from the root without crossing a
scope-demarcating (`PROJECT`/`AGGREGATE`) operator — the root's own bindings
always count, a scope-demarcating node contributes its own bindings but
hides its subtree. -/
mutual
def bindsVisible : OpTree → String → Bool
  | .mk _ ty mods _ cs, x =>
    decide (x ∈ mods) ||
      (!(decide (ty = OPType.PROJECT ∨ ty = OPType.AGGREGATE)) &&
        bindsVisibleF cs x)

def bindsVisibleF : Forest → String → Bool
  | .nil, _ => false
  | .cons c cs, x => bindsVisible c x || bindsVisibleF cs x
end

/-- Specification-side: the node-local step of the reference search for an
operation whose children may not be inspected (blacklisted, or the recursion
limit): resolve against the full effective binding set when blacklisted,
otherwise against the direct `modifies`, without visiting any child. -/
def lreAtomicStep (t : OpTree) (bl : List OPType) (refs : List String) :
    Option OpTree × List String :=
  let ms := if t.ty ∈ bl then ExecutionPlan_BoundVariables t [] else t.modifies
  let afterSelf := removeRefs ms refs
  ((if afterSelf.2 then some t else none), afterSelf.1)

/- The depths (distance from the root) at which the operator with id
`target` occurs in a tree. -/
mutual
def depthsOfId (target : Nat) : OpTree → List Nat
  | .mk i _ _ _ cs =>
    (if i = target then [0] else []) ++ (depthsOfIdF target cs).map (· + 1)

def depthsOfIdF (target : Nat) : Forest → List Nat
  | .nil => []
  | .cons c cs => depthsOfId target c ++ depthsOfIdF target cs
end

/-- Specification-side tap predicate: a childless operator that is not an
argument-injection operator. -/
def isTap (n : OpTree) : Bool :=
  n.children.isNil && !(decide (n.ty = OPType.ARGUMENT))

/-! ## The heap view: mutating operations

`OpBase *` pointers are modelled as `Nat` ids into `Heap.node`; plans as ids
into `Heap.plan`.  Each C field assignment becomes a functional update, in
the same order as the source.  `ASSERT` failures abort the process in the C
code and are modelled by the operation returning `none`. -/

structure OpNode where
  ty : OPType
  modifies : List String
  parent : Option Nat
  children : List Nat
  plan : Nat
deriving DecidableEq

structure PlanRec where
  root : Option Nat
  queryGraph : List Nat
deriving DecidableEq

structure Heap where
  node : Nat → OpNode
  plan : Nat → PlanRec

def setNode (h : Heap) (i : Nat) (n : OpNode) : Heap :=
  { h with node := Function.update h.node i n }

def setPlan (h : Heap) (p : Nat) (pr : PlanRec) : Heap :=
  { h with plan := Function.update h.plan p pr }

/-- `_OpBase_AddChild` (C lines 15-26): append `c` to `p`'s children array,
then set `c`'s parent pointer to `p`. -/
def OpBase_AddChild (h : Heap) (p c : Nat) : Heap :=
  let h1 := setNode h p { h.node p with children := (h.node p).children ++ [c] }
  setNode h1 c { h1.node c with parent := some p }

/-- Replace the first occurrence of `old` in a list by `new`, preserving the
positions of all other elements (the scan of C lines 34-41). -/
def replaceFirst : List Nat → Nat → Nat → List Nat
  | [], _, _ => []
  | x :: xs, old, new =>
    if x = old then new :: xs else x :: replaceFirst xs old new

/-- `_ExecutionPlan_ParentReplaceChild` (C lines 30-44): swap `old` for
`new` in place in `p`'s children and set `new`'s parent; `none` models the
`ASSERT(parent->childCount > 0)` and the `ASSERT(false)` reached when `old`
is not among `p`'s children. -/
def ParentReplaceChild (h : Heap) (p old new : Nat) : Option Heap :=
  if (h.node p).children = [] then none
  else if old ∈ (h.node p).children then
    let h1 := setNode h p
      { h.node p with children := replaceFirst (h.node p).children old new }
    some (setNode h1 new { h1.node new with parent := some p })
  else none

/-- `_OpBase_RemoveChild` (C lines 48-72): delete the first occurrence of
`c` from `p`'s children (shifting the rest left) and clear `c`'s parent;
`none` models the `ASSERT(i != parent->childCount)`. -/
def OpBase_RemoveChild (h : Heap) (p c : Nat) : Option Heap :=
  if c ∈ (h.node p).children then
    let h1 := setNode h p
      { h.node p with children := (h.node p).children.erase c }
    some (setNode h1 c { h1.node c with parent := none })
  else none

/-- `ExecutionPlan_PushBelow` (C lines 79-96): introduce operation `b`
between `a` and `a`'s parent.  `b` joins `a`'s plan; if `a` is the root,
`a` becomes a child of `b` and `b` the plan root, otherwise `b` takes `a`'s
slot under `a`'s parent and `a` is appended as a child of `b`. -/
def ExecutionPlan_PushBelow (h : Heap) (a b : Nat) : Option Heap :=
  let pl := (h.node a).plan
  let h1 := setNode h b { h.node b with plan := pl }
  match (h1.node a).parent with
  | none =>
    let h2 := OpBase_AddChild h1 b a
    some (setPlan h2 pl { h2.plan pl with root := some b })
  | some p =>
    match ParentReplaceChild h1 p a b with
    | none => none
    | some h2 => some (OpBase_AddChild h2 b a)

/-- The clearing of `op` at the end of `ExecutionPlan_RemoveOp`
(C lines 148-152): no parent, no children. -/
def clearOp (h : Heap) (o : Nat) : Heap :=
  setNode h o { h.node o with parent := none, children := [] }

/-- `ExecutionPlan_RemoveOp` (C lines 127-153): excise `op` from the tree.
A root op must have exactly one child (`ASSERT(op->childCount == 1)`),
which becomes the new root.  Otherwise the first child replaces `op` in
place under `op`'s parent and the remaining children are appended to that
parent; a childless op is simply removed.  `op` is cleared afterwards. -/
def ExecutionPlan_RemoveOp (h : Heap) (pl o : Nat) : Option Heap :=
  match (h.node o).parent with
  | none =>
    match (h.node o).children with
    | [c] =>
      let h1 := setPlan h pl { h.plan pl with root := some c }
      let h2 := setNode h1 c { h1.node c with parent := none }
      some (clearOp h2 o)
    | _ => none
  | some p =>
    match (h.node o).children with
    | [] =>
      match OpBase_RemoveChild h p o with
      | none => none
      | some h1 => some (clearOp h1 o)
    | c0 :: rest =>
      match ParentReplaceChild h p o c0 with
      | none => none
      | some h1 =>
        let h2 := rest.foldl (fun hh c => OpBase_AddChild hh p c) h1
        some (clearOp h2 o)

/-- The tail-finding loop of `ExecutionPlan_NewRoot` (C line 109): follow
first-child links until a childless operation is reached.  The `fuel`
argument bounds the walk, modelling the termination of the C `while` loop
on an acyclic heap; `none` means the fuel was exhausted. -/
def chainTail (h : Heap) : Nat → Nat → Option Nat
  | 0, t => if (h.node t).children = [] then some t else none
  | fuel + 1, t =>
    match (h.node t).children with
    | [] => some t
    | c :: _ => chainTail h fuel c

/-- `ExecutionPlan_NewRoot` (C lines 98-113): graft the chain rooted at
`newRoot` above `oldRoot`.  `none` models the asserts
`ASSERT(!old_root->parent && !new_root->parent)` and
`ASSERT(tail->childCount <= 1)` — the latter is executed once, on
`new_root` itself, before the walk. -/
def ExecutionPlan_NewRoot (h : Heap) (fuel oldRoot newRoot : Nat) :
    Option Heap :=
  if (h.node oldRoot).parent = none ∧ (h.node newRoot).parent = none then
    if (h.node newRoot).children.length ≤ 1 then
      match chainTail h fuel newRoot with
      | none => none
      | some t => some (OpBase_AddChild h t oldRoot)
    else none
  else none

/-! ## Concrete trees and heaps used in witnesses and counterexamples -/

def c5D : OpTree := .mk 2 .SCAN ["a"] 0 .nil

def c5A : OpTree := .mk 1 .SCAN [] 0 (.cons c5D .nil)

def c5B : OpTree := .mk 3 .SCAN ["a"] 0 .nil

def c5T : OpTree := .mk 0 .FILTER [] 0 (.cons c5A (.cons c5B .nil))

def c7Arg : OpTree := .mk 1 .ARGUMENT [] 0 .nil

def c7Scan : OpTree := .mk 2 .SCAN [] 0 .nil

def c7W : OpTree := .mk 0 .FILTER [] 0 (.cons c7Arg (.cons c7Scan .nil))

def c10Child : OpTree := .mk 1 .SCAN [] 0 .nil

def c10T : OpTree := .mk 0 .SCAN [] 0 (.cons c10Child .nil)

def c6T : OpTree :=
  .mk 0 .CARTESIAN_PRODUCT [] 0 (.cons (.mk 1 .SCAN ["s"] 0 .nil) .nil)

def c3c1 : OpTree := .mk 1 .SCAN ["x"] 0 .nil

def c3c2 : OpTree := .mk 2 .SCAN [] 0 .nil

def c3T : OpTree := .mk 0 .FILTER [] 0 (.cons c3c1 (.cons c3c2 .nil))

def c9qg : Nat → List Nat := fun p =>
  if p = 1 then [10] else if p = 2 then [20] else []

def c9T : OpTree := .mk 0 .SCAN [] 2 .nil

def c9Bound : OpTree := .mk 5 .SCAN [] 1 .nil

/-- The heap produced by a successful `_ExecutionPlan_ParentReplaceChild`. -/
def prcResult (h : Heap) (p old new : Nat) : Heap :=
  setNode
    (setNode h p
      { h.node p with children := replaceFirst (h.node p).children old new })
    new
    { (setNode h p
        { h.node p with
          children := replaceFirst (h.node p).children old new }).node new
      with parent := some p }

/-- A concrete five-node heap: plan 0 with root 1; node 1 has children
2 and 3; node 2 (the op to remove) has children 4 and 5. -/
def c1Heap : Heap where
  node := fun i =>
    if i = 1 then ⟨.FILTER, [], none, [2, 3], 0⟩
    else if i = 2 then ⟨.TRAVERSE, [], some 1, [4, 5], 0⟩
    else if i = 3 then ⟨.SCAN, [], some 1, [], 0⟩
    else if i = 4 then ⟨.SCAN, [], some 2, [], 0⟩
    else if i = 5 then ⟨.SCAN, [], some 2, [], 0⟩
    else ⟨.SCAN, [], none, [], 0⟩
  plan := fun _ => ⟨some 1, []⟩

def c2Heap : Heap where
  node := fun i =>
    if i = 1 then ⟨.FILTER, [], none, [2, 3], 0⟩
    else if i = 2 then ⟨.SCAN, [], some 1, [], 0⟩
    else if i = 3 then ⟨.SCAN, [], some 1, [], 0⟩
    else if i = 6 then ⟨.PROJECT, [], none, [], 7⟩
    else ⟨.SCAN, [], none, [], 0⟩
  plan := fun _ => ⟨some 1, []⟩

def c8Heap : Heap where
  node := fun i =>
    if i = 0 then ⟨.PROJECT, [], none, [], 0⟩
    else if i = 1 then ⟨.AGGREGATE, [], none, [2], 0⟩
    else if i = 2 then ⟨.TRAVERSE, [], some 1, [3], 0⟩
    else if i = 3 then ⟨.SCAN, [], some 2, [], 0⟩
    else ⟨.SCAN, [], none, [], 0⟩
  plan := fun _ => ⟨some 0, []⟩

def c8BranchHeap : Heap where
  node := fun i =>
    if i = 0 then ⟨.PROJECT, [], none, [], 0⟩
    else if i = 1 then ⟨.AGGREGATE, [], none, [2], 0⟩
    else if i = 2 then ⟨.CARTESIAN_PRODUCT, [], some 1, [3, 4], 0⟩
    else if i = 3 then ⟨.SCAN, [], some 2, [], 0⟩
    else if i = 4 then ⟨.SCAN, [], some 2, [], 0⟩
    else ⟨.SCAN, [], none, [], 0⟩
  plan := fun _ => ⟨some 0, []⟩

/-! ## Membership lemmas for the rax model -/

theorem mem_raxTryInsert (r : List String) (k x : String) :
    x ∈ raxTryInsert r k ↔ x ∈ r ∨ x = k := by
  unfold raxTryInsert
  split
  · rename_i h
    constructor
    · exact Or.inl
    · rintro (hx | rfl)
      · exact hx
      · exact h
  · simp

theorem mem_foldl_raxTryInsert (l : List String) :
    ∀ (acc : List String) (x : String),
      x ∈ l.foldl raxTryInsert acc ↔ x ∈ acc ∨ x ∈ l := by
  induction l with
  | nil => simp
  | cons m ms ih =>
    intro acc x
    simp only [List.foldl_cons, ih, mem_raxTryInsert, List.mem_cons]
    tauto

/-! ## Characterisation of `ExecutionPlan_BoundVariables` -/

mutual
theorem mem_boundVariables : ∀ (t : OpTree) (acc : List String) (x : String),
    x ∈ ExecutionPlan_BoundVariables t acc ↔ x ∈ acc ∨ bindsVisible t x = true
  | .mk i ty mods pl cs => by
    intro acc x
    simp only [ExecutionPlan_BoundVariables, bindsVisible]
    split
    · rename_i hty
      rw [mem_foldl_raxTryInsert]
      simp [hty]
    · rename_i hty
      rw [mem_boundVariablesF cs, mem_foldl_raxTryInsert]
      simp [hty]
      tauto

theorem mem_boundVariablesF : ∀ (cs : Forest) (acc : List String) (x : String),
    x ∈ boundVariablesF cs acc ↔ x ∈ acc ∨ bindsVisibleF cs x = true
  | .nil => by simp [boundVariablesF, bindsVisibleF]
  | .cons c cs => by
    intro acc x
    simp only [boundVariablesF, bindsVisibleF]
    rw [mem_boundVariablesF cs, mem_boundVariables c]
    simp only [Bool.or_eq_true]
    tauto
end

/-- C4: `bound_variables(op, out_set)` adds to the accumulator exactly
`op`'s own bindings and the bindings of every descendant reachable without
passing through a projection or aggregation operator (`bindsVisible`); in
particular, for a projection or aggregation operator `op` itself, exactly
its own bindings are added and nothing from its subtree. -/
theorem C4_bound_variables :
    (∀ (t : OpTree) (acc : List String) (x : String),
        x ∈ ExecutionPlan_BoundVariables t acc ↔
          x ∈ acc ∨ bindsVisible t x = true)
    ∧ (∀ (i : Nat) (mods : List String) (pl : Nat) (cs : Forest)
        (acc : List String) (x : String),
        x ∈ ExecutionPlan_BoundVariables (OpTree.mk i OPType.PROJECT mods pl cs) acc ↔
          x ∈ acc ∨ x ∈ mods)
    ∧ (∀ (i : Nat) (mods : List String) (pl : Nat) (cs : Forest)
        (acc : List String) (x : String),
        x ∈ ExecutionPlan_BoundVariables (OpTree.mk i OPType.AGGREGATE mods pl cs) acc ↔
          x ∈ acc ∨ x ∈ mods) := by
  refine ⟨mem_boundVariables, ?_, ?_⟩ <;>
    · intro i mods pl cs acc x
      simp [ExecutionPlan_BoundVariables, mem_foldl_raxTryInsert]

/-! ## `ExecutionPlan_LocateOpResolvingAlias` is the first pre-order match -/

mutual
theorem locateAlias_eq_find? : ∀ (t : OpTree) (a : String),
    ExecutionPlan_LocateOpResolvingAlias t a =
      (preorder t).find? (fun n => decide (a ∈ n.modifies))
  | .mk i ty mods pl cs => by
    intro a
    by_cases h : a ∈ mods
    · rw [ExecutionPlan_LocateOpResolvingAlias, if_pos h, preorder,
        List.find?_cons_of_pos]
      simp [OpTree.modifies, h]
    · rw [ExecutionPlan_LocateOpResolvingAlias, if_neg h, preorder,
        List.find?_cons_of_neg, locateAliasF_eq_find? cs]
      simp [OpTree.modifies, h]

theorem locateAliasF_eq_find? : ∀ (cs : Forest) (a : String),
    locateAliasF cs a =
      (preorderF cs).find? (fun n => decide (a ∈ n.modifies))
  | .nil => by
    intro a
    simp [locateAliasF, preorderF]
  | .cons c cs => by
    intro a
    rw [locateAliasF, preorderF, List.find?_append, locateAlias_eq_find? c,
      locateAliasF_eq_find? cs]
    cases (preorder c).find? (fun n => decide (a ∈ n.modifies)) <;> simp
end

/-- C5 (amended): `locate_op_resolving_alias(root, alias)` returns the first
operator in pre-order (node before children, children left to right) whose
`binds` set contains the alias, or none when no operator binds it.  Along a
single chain this is the shallowest binder, but across branches the result
is the first match in depth-first order, not necessarily of minimal depth. -/
theorem C5_first_preorder_match :
    ∀ (t : OpTree) (a : String),
      ExecutionPlan_LocateOpResolvingAlias t a =
        (preorder t).find? (fun n => decide (a ∈ n.modifies)) :=
  locateAlias_eq_find?

/-- C5 counterexample: in the tree `0[1[2], 3]` where both the operator with
id 2 (at depth 2) and the operator with id 3 (at depth 1) bind `"a"`, the
search returns the operator with id 2, which is not of minimal depth among
the binders — refuting the claim that the shallowest binder is returned. -/
theorem C5_counterexample :
    (ExecutionPlan_LocateOpResolvingAlias c5T "a").map OpTree.id = some 2
    ∧ c5B ∈ preorder c5T
    ∧ "a" ∈ c5B.modifies
    ∧ depthsOfId 3 c5T = [1]
    ∧ depthsOfId 2 c5T = [2] := by
  refine ⟨?_, ?_, ?_, ?_, ?_⟩ <;> decide

/-! ## `ExecutionPlan_LocateTaps` collects exactly the non-Argument leaves -/

mutual
theorem locateTapsAux_eq : ∀ (t : OpTree) (acc : List OpTree),
    locateTapsAux t acc = acc ++ (preorder t).filter isTap
  | .mk i ty mods pl cs => by
    intro acc
    rw [locateTapsAux, locateTapsF_eq cs, preorder]
    by_cases h : cs.isNil = true ∧ ty ≠ OPType.ARGUMENT
    · rw [if_pos h, List.filter_cons_of_pos]
      · simp
      · simp [isTap, OpTree.children, OpTree.ty, h.1, h.2]
    · rw [if_neg h, List.filter_cons_of_neg]
      simp only [isTap, OpTree.children, OpTree.ty, Bool.and_eq_true,
        Bool.not_eq_true', decide_eq_false_iff_not]
      tauto

theorem locateTapsF_eq : ∀ (cs : Forest) (acc : List OpTree),
    locateTapsF cs acc = acc ++ (preorderF cs).filter isTap
  | .nil => by
    intro acc
    simp [locateTapsF, preorderF]
  | .cons c cs => by
    intro acc
    rw [locateTapsF, locateTapsAux_eq c, locateTapsF_eq cs, preorderF,
      List.filter_append, List.append_assoc]
end

/-- C7: `locate_taps` returns exactly the childless operators whose kind is
not the argument-injection kind — every such operator of the tree is
returned, nothing else is (in particular no `ARGUMENT` operator), and, on a
heap whose node ids are distinct, each is returned exactly once. -/
theorem C7_locate_taps (root : OpTree) (hnd : (idsOf root).Nodup) :
    (∀ n : OpTree, n ∈ ExecutionPlan_LocateTaps root ↔
      n ∈ preorder root ∧ n.children.isNil = true ∧ n.ty ≠ OPType.ARGUMENT)
    ∧ (∀ n ∈ ExecutionPlan_LocateTaps root,
        (ExecutionPlan_LocateTaps root).count n = 1) := by
  have htaps : ExecutionPlan_LocateTaps root = (preorder root).filter isTap := by
    rw [ExecutionPlan_LocateTaps, locateTapsAux_eq, List.nil_append]
  have hchar : ∀ n : OpTree, n ∈ ExecutionPlan_LocateTaps root ↔
      n ∈ preorder root ∧ n.children.isNil = true ∧ n.ty ≠ OPType.ARGUMENT := by
    intro n
    rw [htaps, List.mem_filter]
    simp only [isTap, Bool.and_eq_true, Bool.not_eq_true',
      decide_eq_false_iff_not]
  refine ⟨hchar, ?_⟩
  intro n hn
  have hpre : (preorder root).Nodup := List.Nodup.of_map OpTree.id hnd
  have : (ExecutionPlan_LocateTaps root).Nodup := by
    rw [htaps]
    exact List.Nodup.sublist (List.filter_sublist _) hpre
  exact List.count_eq_one_of_mem this hn

/-- Witness for C7 on the concrete tree `0[1:ARGUMENT, 2:SCAN]`: the
argument leaf is not reported, the scan leaf is reported exactly once. -/
theorem C7_locate_taps_witness :
    (idsOf c7W).Nodup
    ∧ c7Arg ∉ ExecutionPlan_LocateTaps c7W
    ∧ c7Scan ∈ ExecutionPlan_LocateTaps c7W
    ∧ (ExecutionPlan_LocateTaps c7W).count c7Scan = 1 := by
  have h := C7_locate_taps c7W (by decide)
  refine ⟨by decide, ?_, ?_, ?_⟩
  · intro hmem
    have hprop := (h.1 c7Arg).mp hmem
    exact absurd hprop.2.2 (by decide)
  · exact (h.1 c7Scan).mpr (by decide)
  · exact h.2 c7Scan ((h.1 c7Scan).mpr (by decide))

/-! ## The reference search on an empty working set -/

theorem removeRefs_nil (mods : List String) : removeRefs mods [] = ([], false) := by
  rw [removeRefs]
  induction mods with
  | nil => rfl
  | cons m ms ih => simpa [raxRemove] using ih

theorem lreChildren_flagged (root : OpTree) (limit : Option Nat)
    (bl : List OPType) (cs : Forest) (r : Option OpTree) (refs : List String) :
    lreChildren root limit bl cs r refs true = (r, refs, true) := by
  cases cs <;> simp [lreChildren]

mutual
theorem lre_empty : ∀ (t : OpTree) (limit : Option Nat) (bl : List OPType),
    ExecutionPlan_LocateReferencesExcludingOps t limit bl [] = (none, [])
  | .mk i ty mods pl cs => by
    intro limit bl
    rw [ExecutionPlan_LocateReferencesExcludingOps]
    by_cases hc : ¬ty ∈ bl ∧ limit ≠ some i
    · rw [if_pos hc, lreChildren_empty cs limit bl]
      cases cs <;> simp [Forest.isNil, removeRefs_nil]
    · rw [if_neg hc]
      simp [removeRefs_nil]

theorem lreChildren_empty : ∀ (cs : Forest) (limit : Option Nat)
    (bl : List OPType) (root : OpTree),
    lreChildren root limit bl cs none [] false = (none, [], !cs.isNil)
  | .nil => by
    intro limit bl root
    simp [lreChildren, Forest.isNil]
  | .cons c cs => by
    intro limit bl root
    rw [lreChildren, if_neg (by simp), lre_empty c limit bl]
    simp [Forest.isNil, lreChildren_flagged]
end

/-- C10 (amended): called with an empty working set, the search resolves
nothing: it returns none and leaves the set empty.  It does not, however,
return immediately — there is no emptiness check before the child loop, so
nodes may still be visited (see the counterexample). -/
theorem C10_empty_refs :
    ∀ (t : OpTree) (limit : Option Nat) (bl : List OPType),
      ExecutionPlan_LocateReferencesExcludingOps t limit bl [] = (none, []) :=
  lre_empty

/-- C10 counterexample: on the two-node tree `0[1]` with an empty working
set the search still visits the child operator (id 1) — the emptiness test
happens only after the first child visit — refuting "returns none
immediately without visiting any node" (the result is still none and the
set stays empty). -/
theorem C10_counterexample :
    (lreTraced c10T none [] []).2 = [0, 1]
    ∧ (lreTraced c10T none [] []).1 = (none, []) := by decide

/-- C6: at an operator whose kind is blacklisted, or at the `recurse_limit`
operator, the search never descends into the children: the result is the
purely node-local `lreAtomicStep`, which for a blacklisted operator removes
from `refs` exactly the names of the full effective binding set computed by
`bound_variables` over its subtree, and otherwise only the direct binds. -/
theorem C6_atomic_ops (t : OpTree) (limit : Option Nat) (bl : List OPType)
    (refs : List String) (h : t.ty ∈ bl ∨ limit = some t.id) :
    ExecutionPlan_LocateReferencesExcludingOps t limit bl refs =
      lreAtomicStep t bl refs := by
  obtain ⟨i, ty, mods, pl, cs⟩ := t
  simp only [OpTree.ty, OpTree.id] at h
  have hcond : ¬(ty ∉ bl ∧ limit ≠ some i) := by tauto
  rw [ExecutionPlan_LocateReferencesExcludingOps, if_neg hcond]
  simp [lreAtomicStep, OpTree.ty, OpTree.modifies]

/-- Witness for C6: a blacklisted Cartesian-product operator binding nothing
itself resolves the reference `"s"` bound inside its (uninspected) subtree,
because the atomic node-local step uses `bound_variables` of the whole subtree. -/
theorem C6_atomic_ops_witness :
    OpTree.ty c6T ∈ [OPType.CARTESIAN_PRODUCT]
    ∧ ExecutionPlan_LocateReferencesExcludingOps c6T none
        [OPType.CARTESIAN_PRODUCT] ["s"] =
        lreAtomicStep c6T [OPType.CARTESIAN_PRODUCT] ["s"]
    ∧ lreAtomicStep c6T [OPType.CARTESIAN_PRODUCT] ["s"] = (some c6T, []) := by
  exact ⟨by decide,
    C6_atomic_ops c6T none [OPType.CARTESIAN_PRODUCT] ["s"] (Or.inl (by decide)),
    by decide⟩

/-! ## Promotion behaviour of the child loop -/

theorem lreChildren_some_root (root : OpTree) (limit : Option Nat)
    (bl : List OPType) :
    ∀ (cs : Forest) (refs : List String) (flag : Bool),
      (lreChildren root limit bl cs (some root) refs flag).1 = some root
  | .nil, refs, flag => by simp [lreChildren]
  | .cons c cs, refs, flag => by
    rw [lreChildren]
    split
    · rfl
    · simpa using lreChildren_some_root root limit bl cs _ _

theorem lreChildren_promote (root : OpTree) (limit : Option Nat)
    (bl : List OPType) (c : OpTree) (cs : Forest) (r : Option OpTree)
    (hr : r.isSome = true) (refs : List String) :
    (lreChildren root limit bl (Forest.cons c cs) r refs false).1 = some root := by
  rw [lreChildren, if_neg (by simp)]
  simp only [hr, if_true]
  exact lreChildren_some_root root limit bl cs _ _

/-- Unfolding of the reference search at a non-blacklisted operator that is
not the recursion limit. -/
theorem lre_step (i : Nat) (ty : OPType) (mods : List String) (pl : Nat)
    (cs : Forest) (limit : Option Nat) (bl : List OPType) (refs : List String)
    (hbl : ty ∉ bl) (hlim : limit ≠ some i) :
    ExecutionPlan_LocateReferencesExcludingOps (OpTree.mk i ty mods pl cs)
        limit bl refs =
      (if (lreChildren (OpTree.mk i ty mods pl cs) limit bl cs none refs
            false).2.2 then
        ((lreChildren (OpTree.mk i ty mods pl cs) limit bl cs none refs
            false).1,
          (lreChildren (OpTree.mk i ty mods pl cs) limit bl cs none refs
            false).2.1)
      else
        ((if (removeRefs mods (lreChildren (OpTree.mk i ty mods pl cs) limit
              bl cs none refs false).2.1).2 then
            some (OpTree.mk i ty mods pl cs)
          else (lreChildren (OpTree.mk i ty mods pl cs) limit bl cs none refs
            false).1),
          (removeRefs mods (lreChildren (OpTree.mk i ty mods pl cs) limit bl
            cs none refs false).2.1).1)) := by
  rw [ExecutionPlan_LocateReferencesExcludingOps]
  simp [hbl, hlim]

/-- Unfolding of one iteration of the child loop when the
`all_refs_resolved` flag is not yet set. -/
theorem lreChildren_cons_step (root : OpTree) (limit : Option Nat)
    (bl : List OPType) (c : OpTree) (cs : Forest) (r : Option OpTree)
    (refs : List String) :
    lreChildren root limit bl (Forest.cons c cs) r refs false =
      lreChildren root limit bl cs
        (if r.isSome then some root
         else (ExecutionPlan_LocateReferencesExcludingOps c limit bl refs).1)
        (ExecutionPlan_LocateReferencesExcludingOps c limit bl refs).2
        (ExecutionPlan_LocateReferencesExcludingOps c limit bl refs).2.isEmpty := by
  rw [lreChildren]
  simp

/-- C3 (amended): union of per-child results in `locate_references`, as the
code computes it: once any child has resolved references, visiting a
further child promotes the resolver to the current operator — so with more
than one resolving child (or any child visited after a resolving one) the
common ancestor is reported; a resolving child is propagated as the
resolver only when no further child is visited after it, e.g. when it is an
only child (and the current operator itself resolves nothing). -/
theorem C3_resolver_promotion :
    (∀ (i : Nat) (ty : OPType) (mods : List String) (pl : Nat) (c1 : OpTree)
        (rest : Forest) (limit : Option Nat) (bl : List OPType)
        (refs : List String),
        ty ∉ bl → limit ≠ some i → rest ≠ Forest.nil →
        (ExecutionPlan_LocateReferencesExcludingOps c1 limit bl refs).1.isSome = true →
        (ExecutionPlan_LocateReferencesExcludingOps c1 limit bl refs).2 ≠ [] →
        (ExecutionPlan_LocateReferencesExcludingOps
            (OpTree.mk i ty mods pl (Forest.cons c1 rest)) limit bl refs).1 =
          some (OpTree.mk i ty mods pl (Forest.cons c1 rest)))
    ∧ (∀ (i : Nat) (ty : OPType) (mods : List String) (pl : Nat) (c0 : OpTree)
        (limit : Option Nat) (bl : List OPType) (refs refs2 : List String)
        (op : OpTree),
        ty ∉ bl → limit ≠ some i →
        ExecutionPlan_LocateReferencesExcludingOps c0 limit bl refs =
          (some op, refs2) →
        refs2 ≠ [] → (removeRefs mods refs2).2 = false →
        (ExecutionPlan_LocateReferencesExcludingOps
            (OpTree.mk i ty mods pl (Forest.cons c0 Forest.nil)) limit bl refs).1 =
          some op) := by
  constructor
  · intro i ty mods pl c1 rest limit bl refs hbl hlim hrest hsome hne
    cases rest with
    | nil => exact absurd rfl hrest
    | cons c2 rest2 =>
      have hemp :
          (ExecutionPlan_LocateReferencesExcludingOps c1 limit bl refs).2.isEmpty
            = false := by
        cases hv : (ExecutionPlan_LocateReferencesExcludingOps c1 limit bl refs).2
        · exact absurd hv hne
        · rfl
      have hpro := lreChildren_promote
        (OpTree.mk i ty mods pl (Forest.cons c1 (Forest.cons c2 rest2)))
        limit bl c2 rest2
        (ExecutionPlan_LocateReferencesExcludingOps c1 limit bl refs).1 hsome
        (ExecutionPlan_LocateReferencesExcludingOps c1 limit bl refs).2
      rw [lre_step i ty mods pl _ limit bl refs hbl hlim]
      rw [lreChildren_cons_step]
      simp only [Option.isSome_none, Bool.false_eq_true, if_false, hemp]
      split
      · simpa using hpro
      · split <;> simp [hpro]
  · intro i ty mods pl c0 limit bl refs refs2 op hbl hlim hc0 hne hrm
    have hemp : refs2.isEmpty = false := by
      cases hv : refs2
      · exact absurd hv hne
      · rfl
    rw [lre_step i ty mods pl _ limit bl refs hbl hlim, lreChildren_cons_step,
      hc0]
    simp [lreChildren, hemp, hrm]

/-- C3 counterexample: on the tree `0[1, 2]` with working set `x, y`,
exactly one child resolves references — child 1 removes `x` (leaving `y`)
and child 2 resolves nothing — yet the search reports the parent (id 0),
not the resolving child, refuting "if exactly one child resolved
references, that child is propagated as the resolver". -/
theorem C3_counterexample :
    (ExecutionPlan_LocateReferencesExcludingOps c3c1 none [] ["x", "y"]).1
        = some c3c1
    ∧ (ExecutionPlan_LocateReferencesExcludingOps c3c1 none [] ["x", "y"]).2
        = ["y"]
    ∧ ExecutionPlan_LocateReferencesExcludingOps c3c2 none [] ["y"]
        = (none, ["y"])
    ∧ (ExecutionPlan_LocateReferencesExcludingOps c3T none [] ["x", "y"]).1
        = some c3T
    ∧ c3T ≠ c3c1 := by decide

/-- Witness for C3 (amended), on the counterexample tree: the first child
resolves part of the working set, a further child is visited, and the
parent is reported. -/
theorem C3_resolver_promotion_witness :
    (ExecutionPlan_LocateReferencesExcludingOps c3T none [] ["x", "y"]).1
      = some c3T :=
  C3_resolver_promotion.1 0 .FILTER [] 0 c3c1 (.cons c3c2 .nil) none []
    ["x", "y"] (by decide) (by decide) (by decide) (by decide) (by decide)

/-! ## Properties of `ExecutionPlan_BindPlanToOps` -/

theorem mem_mergeGraphs_left {e : Nat} {dst src : List Nat} (h : e ∈ dst) :
    e ∈ QueryGraph_MergeGraphs dst src :=
  List.mem_append_left _ h

theorem mem_mergeGraphs_right {e : Nat} {dst src : List Nat} (h : e ∈ src) :
    e ∈ QueryGraph_MergeGraphs dst src := by
  by_cases hd : e ∈ dst
  · exact List.mem_append_left _ hd
  · exact List.mem_append_right _ (List.mem_filter.mpr ⟨h, by simpa using hd⟩)

theorem mergeGraphs_self (g : List Nat) : QueryGraph_MergeGraphs g g = g := by
  have : g.filter (fun e => decide (e ∉ g)) = [] := by
    rw [List.filter_eq_nil_iff]
    intro a ha
    simpa using ha
  simp [QueryGraph_MergeGraphs, this]

mutual
theorem bindPlan_grow : ∀ (t : OpTree) (qg : Nat → List Nat) (tp p e : Nat),
    e ∈ qg p → e ∈ (ExecutionPlan_BindPlanToOps qg tp t).1 p
  | .mk i ty mods pl cs => by
    intro qg tp p e he
    simp only [ExecutionPlan_BindPlanToOps]
    apply bindPlanF_grow cs
    by_cases hp : p = tp
    · subst hp
      rw [Function.update_same]
      exact mem_mergeGraphs_left he
    · rw [Function.update_noteq hp]
      exact he

theorem bindPlanF_grow : ∀ (cs : Forest) (qg : Nat → List Nat) (tp p e : Nat),
    e ∈ qg p → e ∈ (bindPlanToOpsF qg tp cs).1 p
  | .nil => by
    intro qg tp p e he
    simpa [bindPlanToOpsF] using he
  | .cons c cs => by
    intro qg tp p e he
    simp only [bindPlanToOpsF]
    exact bindPlanF_grow cs _ tp p e (bindPlan_grow c _ tp p e he)
end

mutual
theorem bindPlan_plans : ∀ (t : OpTree) (qg : Nat → List Nat) (tp : Nat)
    (n : OpTree),
    n ∈ preorder (ExecutionPlan_BindPlanToOps qg tp t).2 → n.plan = tp
  | .mk i ty mods pl cs => by
    intro qg tp n hn
    simp only [ExecutionPlan_BindPlanToOps, preorder] at hn
    rcases List.mem_cons.mp hn with h | h
    · subst h
      rfl
    · exact bindPlanF_plans cs _ tp n h

theorem bindPlanF_plans : ∀ (cs : Forest) (qg : Nat → List Nat) (tp : Nat)
    (n : OpTree),
    n ∈ preorderF (bindPlanToOpsF qg tp cs).2 → n.plan = tp
  | .nil => by
    intro qg tp n hn
    simp [bindPlanToOpsF, preorderF] at hn
  | .cons c cs => by
    intro qg tp n hn
    simp only [bindPlanToOpsF, preorderF] at hn
    rcases List.mem_append.mp hn with h | h
    · exact bindPlan_plans c _ tp n h
    · exact bindPlanF_plans cs _ tp n h
end

mutual
theorem bindPlan_idem : ∀ (t : OpTree) (qg : Nat → List Nat) (tp : Nat),
    (∀ n ∈ preorder t, n.plan = tp) →
    ExecutionPlan_BindPlanToOps qg tp t = (qg, t)
  | .mk i ty mods pl cs => by
    intro qg tp hall
    have hpl : pl = tp := by
      have := hall (OpTree.mk i ty mods pl cs) (by simp [preorder])
      simpa [OpTree.plan] using this
    subst hpl
    have hcs : ∀ n ∈ preorderF cs, n.plan = pl := fun n hn =>
      hall n (by simp [preorder, hn])
    simp only [ExecutionPlan_BindPlanToOps]
    rw [mergeGraphs_self, Function.update_eq_self,
      bindPlanF_idem cs qg pl hcs]

theorem bindPlanF_idem : ∀ (cs : Forest) (qg : Nat → List Nat) (tp : Nat),
    (∀ n ∈ preorderF cs, n.plan = tp) → bindPlanToOpsF qg tp cs = (qg, cs)
  | .nil => by
    intro qg tp _
    simp [bindPlanToOpsF]
  | .cons c cs => by
    intro qg tp hall
    simp only [bindPlanToOpsF]
    rw [bindPlan_idem c qg tp (fun n hn => hall n (by simp [preorderF, hn])),
      bindPlanF_idem cs qg tp (fun n hn => hall n (by simp [preorderF, hn]))]
end

mutual
theorem bindPlan_coverage : ∀ (t : OpTree) (qg : Nat → List Nat) (tp : Nat)
    (n : OpTree),
    n ∈ preorder t → ∀ e ∈ qg n.plan,
      e ∈ (ExecutionPlan_BindPlanToOps qg tp t).1 tp
  | .mk i ty mods pl cs => by
    intro qg tp n hn e he
    simp only [preorder] at hn
    simp only [ExecutionPlan_BindPlanToOps]
    rcases List.mem_cons.mp hn with h | h
    · subst h
      simp only [OpTree.plan] at he
      apply bindPlanF_grow cs
      rw [Function.update_same]
      exact mem_mergeGraphs_right he
    · apply bindPlanF_coverage cs _ tp n h e
      by_cases hp : n.plan = tp
      · rw [hp, Function.update_same]
        exact mem_mergeGraphs_left (hp ▸ he)
      · rw [Function.update_noteq hp]
        exact he

theorem bindPlanF_coverage : ∀ (cs : Forest) (qg : Nat → List Nat) (tp : Nat)
    (n : OpTree),
    n ∈ preorderF cs → ∀ e ∈ qg n.plan,
      e ∈ (bindPlanToOpsF qg tp cs).1 tp
  | .nil => by
    intro qg tp n hn
    simp [preorderF] at hn
  | .cons c cs => by
    intro qg tp n hn e he
    simp only [preorderF] at hn
    simp only [bindPlanToOpsF]
    rcases List.mem_append.mp hn with h | h
    · exact bindPlanF_grow cs _ tp tp e (bindPlan_coverage c qg tp n h e he)
    · exact bindPlanF_coverage cs _ tp n h e
        (bindPlan_grow c qg tp n.plan e he)
end

/-- C9: `bind_plan_to_ops(plan, root)` leaves every node of the subtree with
`owning_plan = plan`, migrates every entity of each visited node's old
owning plan's query graph into `plan`'s query graph, and is the identity
(on both the tree and the plan-to-graph map) when the subtree is already
bound to `plan`. -/
theorem C9_bind_plan_to_ops :
    (∀ (qg : Nat → List Nat) (tp : Nat) (t : OpTree),
        ∀ n ∈ preorder (ExecutionPlan_BindPlanToOps qg tp t).2, n.plan = tp)
    ∧ (∀ (qg : Nat → List Nat) (tp : Nat) (t : OpTree) (n : OpTree),
        n ∈ preorder t → ∀ e ∈ qg n.plan,
          e ∈ (ExecutionPlan_BindPlanToOps qg tp t).1 tp)
    ∧ (∀ (qg : Nat → List Nat) (tp : Nat) (t : OpTree),
        (∀ n ∈ preorder t, n.plan = tp) →
        ExecutionPlan_BindPlanToOps qg tp t = (qg, t)) :=
  ⟨fun qg tp t n hn => bindPlan_plans t qg tp n hn,
   fun qg tp t n hn e he => bindPlan_coverage t qg tp n hn e he,
   fun qg tp t hall => bindPlan_idem t qg tp hall⟩

/-- Witness for C9: re-binding a node owned by plan 2 to plan 1 sets its
`owning_plan` to 1 and migrates entity 20 of plan 2's graph into plan 1's
graph; on a node already owned by plan 1 the operation changes nothing. -/
theorem C9_bind_plan_to_ops_witness :
    (ExecutionPlan_BindPlanToOps c9qg 1 c9T).2.plan = 1
    ∧ 20 ∈ (ExecutionPlan_BindPlanToOps c9qg 1 c9T).1 1
    ∧ ExecutionPlan_BindPlanToOps c9qg 1 c9Bound = (c9qg, c9Bound) := by
  refine ⟨?_, ?_, ?_⟩
  · exact C9_bind_plan_to_ops.1 c9qg 1 c9T _ (by decide)
  · exact C9_bind_plan_to_ops.2.1 c9qg 1 c9T c9T (by decide) 20 (by decide)
  · exact C9_bind_plan_to_ops.2.2 c9qg 1 c9Bound (by decide)

/-! ## Heap update lemmas -/

theorem setNode_node_same (h : Heap) (i : Nat) (n : OpNode) :
    (setNode h i n).node i = n := by
  simp [setNode]

theorem setNode_node_other (h : Heap) (i j : Nat) (n : OpNode) (hne : j ≠ i) :
    (setNode h i n).node j = h.node j := by
  simp [setNode, Function.update_noteq hne]

theorem setNode_plan (h : Heap) (i : Nat) (n : OpNode) :
    (setNode h i n).plan = h.plan := rfl

theorem setPlan_node (h : Heap) (p : Nat) (pr : PlanRec) :
    (setPlan h p pr).node = h.node := rfl

theorem replaceFirst_eq_set : ∀ (l : List Nat) (o n : Nat),
    replaceFirst l o n = l.set (l.indexOf o) n
  | [], o, n => by simp [replaceFirst]
  | x :: xs, o, n => by
    rw [replaceFirst]
    by_cases hx : x = o
    · subst hx
      rw [List.indexOf_cons_self]
      simp
    · rw [if_neg hx, List.indexOf_cons_ne _ (by simpa using hx)]
      simp [replaceFirst_eq_set xs o n]

theorem length_replaceFirst : ∀ (l : List Nat) (o n : Nat),
    (replaceFirst l o n).length = l.length
  | [], _, _ => rfl
  | x :: xs, o, n => by
    rw [replaceFirst]
    by_cases hx : x = o
    · simp [hx]
    · simp [hx, length_replaceFirst xs o n]

theorem addChild_node_parent (h : Heap) (p c : Nat) :
    ((OpBase_AddChild h p c).node c).parent = some p := by
  simp [OpBase_AddChild, setNode_node_same]

theorem addChild_node_children (h : Heap) (p c : Nat) (hcp : p ≠ c) :
    ((OpBase_AddChild h p c).node p).children =
      (h.node p).children ++ [c] := by
  rw [OpBase_AddChild]
  rw [setNode_node_other _ _ _ _ hcp, setNode_node_same]

theorem addChild_node_other (h : Heap) (p c x : Nat) (hxp : x ≠ p)
    (hxc : x ≠ c) : (OpBase_AddChild h p c).node x = h.node x := by
  rw [OpBase_AddChild, setNode_node_other _ _ _ _ hxc,
    setNode_node_other _ _ _ _ hxp]

theorem addChild_plan (h : Heap) (p c : Nat) :
    (OpBase_AddChild h p c).plan = h.plan := rfl

theorem foldl_addChild_children (p : Nat) : ∀ (rest : List Nat) (hh : Heap),
    p ∉ rest →
    ((rest.foldl (fun hh c => OpBase_AddChild hh p c) hh).node p).children =
      (hh.node p).children ++ rest
  | [], hh, _ => by simp
  | c :: rest, hh, hnp => by
    have hpc : p ≠ c := fun h => hnp (h ▸ List.mem_cons_self c rest)
    rw [List.foldl_cons,
      foldl_addChild_children p rest _ (fun h => hnp (List.mem_cons_of_mem _ h)),
      addChild_node_children hh p c hpc]
    simp

theorem foldl_addChild_node_other (p : Nat) : ∀ (rest : List Nat) (hh : Heap)
    (x : Nat), x ≠ p → x ∉ rest →
    ((rest.foldl (fun hh c => OpBase_AddChild hh p c) hh).node x) = hh.node x
  | [], _, _, _, _ => rfl
  | c :: rest, hh, x, hxp, hxr => by
    have hxc : x ≠ c := fun h => hxr (h ▸ List.mem_cons_self c rest)
    rw [List.foldl_cons,
      foldl_addChild_node_other p rest _ x hxp
        (fun h => hxr (List.mem_cons_of_mem _ h)),
      addChild_node_other hh p c x hxp hxc]

theorem foldl_addChild_parent (p : Nat) : ∀ (rest : List Nat) (hh : Heap)
    (c : Nat), c ∈ rest → c ≠ p →
    ((rest.foldl (fun hh c => OpBase_AddChild hh p c) hh).node c).parent
      = some p
  | [], _, _, hc, _ => absurd hc (List.not_mem_nil _)
  | c0 :: rest, hh, c, hc, hcp => by
    rw [List.foldl_cons]
    by_cases hcr : c ∈ rest
    · exact foldl_addChild_parent p rest _ c hcr hcp
    · have hc0 : c = c0 := by
        rcases List.mem_cons.mp hc with h | h
        · exact h
        · exact absurd h hcr
      subst hc0
      rw [foldl_addChild_node_other p rest _ c hcp hcr]
      exact addChild_node_parent hh p c

/-- C1: for a non-root `op` with `k` children, `remove_op(plan, op)`
succeeds and changes the parent's child count by `k - 1`; with `k = 0` the
op is simply deleted from the parent's children; with `k ≥ 1` the former
first child occupies `op`'s old position among the parent's children and
the remaining children are appended in their original order; afterwards
`op` has no parent and no children. -/
theorem C1_remove_op (h : Heap) (pl o p : Nat)
    (hpar : (h.node o).parent = some p)
    (hop : o ≠ p)
    (hmem : o ∈ (h.node p).children)
    (hself : o ∉ (h.node o).children)
    (hpc : p ∉ (h.node o).children) :
    ∃ h', ExecutionPlan_RemoveOp h pl o = some h'
      ∧ (h'.node o).parent = none
      ∧ (h'.node o).children = []
      ∧ (h'.node p).children.length + 1 =
          (h.node p).children.length + (h.node o).children.length
      ∧ ((h.node o).children = [] →
          (h'.node p).children = (h.node p).children.erase o)
      ∧ (∀ c0 rest, (h.node o).children = c0 :: rest →
          (h'.node p).children =
            ((h.node p).children.set ((h.node p).children.indexOf o) c0)
              ++ rest) := by
  have hpo : p ≠ o := Ne.symm hop
  have hlen : 0 < (h.node p).children.length :=
    List.length_pos.mpr (List.ne_nil_of_mem hmem)
  cases hch : (h.node o).children with
  | nil =>
    have hstep : ExecutionPlan_RemoveOp h pl o =
        some (clearOp (setNode (setNode h p
          { h.node p with children := (h.node p).children.erase o }) o
          { (setNode h p
              { h.node p with children := (h.node p).children.erase o }).node o
            with parent := none }) o) := by
      simp only [ExecutionPlan_RemoveOp, hpar, hch, OpBase_RemoveChild]
      rw [if_pos hmem]
    refine ⟨_, hstep, ?_, ?_, ?_, fun _ => ?_, fun c0 rest hcon => ?_⟩
    · simp [clearOp, setNode_node_same]
    · simp [clearOp, setNode_node_same]
    · have hp2 : ((setNode h p
          { h.node p with children := (h.node p).children.erase o }).node p)
            = { h.node p with children := (h.node p).children.erase o } :=
        setNode_node_same _ _ _
      rw [clearOp, setNode_node_other _ _ _ _ hpo,
        setNode_node_other _ _ _ _ hpo, hp2]
      simp [List.length_erase_of_mem hmem]
      omega
    · rw [clearOp, setNode_node_other _ _ _ _ hpo,
        setNode_node_other _ _ _ _ hpo, setNode_node_same]
    · exact absurd hcon (by simp)
  | cons c0 rest =>
    have hoc0 : o ≠ c0 := fun he => hself (by rw [hch, he]; simp)
    have hor : o ∉ rest := fun he => hself (by rw [hch]; simp [he])
    have hpc0 : p ≠ c0 := fun he => hpc (by rw [hch, he]; simp)
    have hpr : p ∉ rest := fun he => hpc (by rw [hch]; simp [he])
    have hnn : ¬(h.node p).children = [] := List.ne_nil_of_mem hmem
    have hstep : ExecutionPlan_RemoveOp h pl o =
        some (clearOp (rest.foldl (fun hh c => OpBase_AddChild hh p c)
          (setNode (setNode h p
            { h.node p with
                children := replaceFirst (h.node p).children o c0 }) c0
            { (setNode h p
                { h.node p with
                    children := replaceFirst (h.node p).children o c0 }).node
                  c0
              with parent := some p })) o) := by
      simp only [ExecutionPlan_RemoveOp, hpar, hch, ParentReplaceChild]
      rw [if_neg hnn, if_pos hmem]
    have hnodep : ∀ hh : Heap,
        ((clearOp hh o).node p) = hh.node p := fun hh =>
      setNode_node_other _ _ _ _ hpo
    have hchp : ((clearOp (rest.foldl (fun hh c => OpBase_AddChild hh p c)
        (setNode (setNode h p
          { h.node p with
              children := replaceFirst (h.node p).children o c0 }) c0
          { (setNode h p
              { h.node p with
                  children := replaceFirst (h.node p).children o c0 }).node
                c0
            with parent := some p })) o).node p).children =
        replaceFirst (h.node p).children o c0 ++ rest := by
      rw [hnodep, foldl_addChild_children p rest _ hpr,
        setNode_node_other _ _ _ _ hpc0, setNode_node_same]
    refine ⟨_, hstep, ?_, ?_, ?_, fun hcon => ?_, fun c0' rest' heq => ?_⟩
    · simp [clearOp, setNode_node_same]
    · simp [clearOp, setNode_node_same]
    · rw [hchp]
      simp [length_replaceFirst]
      omega
    · exact absurd hcon (by simp)
    · obtain ⟨h1, h2⟩ : c0 = c0' ∧ rest = rest' := by
        injection heq with h1 h2
        exact ⟨h1, h2⟩
      subst h1
      subst h2
      rw [hchp, replaceFirst_eq_set]

/-- Witness for C1: removing node 2 (two children) from under node 1 leaves
node 1 with children `[4, 3, 5]` — child 4 in node 2's old slot, child 5
appended — and clears node 2. -/
theorem C1_remove_op_witness :
    (ExecutionPlan_RemoveOp c1Heap 0 2).map
        (fun h' => ((h'.node 2).parent, (h'.node 2).children,
          (h'.node 1).children)) = some (none, [], [4, 3, 5]) := by
  obtain ⟨h', hrun, hp, hc, _, _, h5⟩ :=
    C1_remove_op c1Heap 0 2 1 (by decide) (by decide) (by decide)
      (by decide) (by decide)
  have h15 := h5 4 [5] (by decide)
  rw [hrun]
  simp only [Option.map_some', hp, hc, h15]
  decide

/-- Field-level description of `_OpBase_AddChild`. -/
theorem addChild_spec (h : Heap) (p c : Nat) (hpc : p ≠ c) :
    ((OpBase_AddChild h p c).node p).children = (h.node p).children ++ [c]
    ∧ ((OpBase_AddChild h p c).node p).parent = (h.node p).parent
    ∧ ((OpBase_AddChild h p c).node p).plan = (h.node p).plan
    ∧ ((OpBase_AddChild h p c).node c).parent = some p
    ∧ ((OpBase_AddChild h p c).node c).children = (h.node c).children
    ∧ ((OpBase_AddChild h p c).node c).plan = (h.node c).plan
    ∧ (∀ x, x ≠ p → x ≠ c → (OpBase_AddChild h p c).node x = h.node x)
    ∧ (OpBase_AddChild h p c).plan = h.plan := by
  have hcp : c ≠ p := Ne.symm hpc
  refine ⟨?_, ?_, ?_, ?_, ?_, ?_, ?_, rfl⟩
  · rw [OpBase_AddChild, setNode_node_other _ _ _ _ hpc, setNode_node_same]
  · rw [OpBase_AddChild, setNode_node_other _ _ _ _ hpc, setNode_node_same]
  · rw [OpBase_AddChild, setNode_node_other _ _ _ _ hpc, setNode_node_same]
  · rw [OpBase_AddChild, setNode_node_same]
  · rw [OpBase_AddChild, setNode_node_same, setNode_node_other _ _ _ _ hcp]
  · rw [OpBase_AddChild, setNode_node_same, setNode_node_other _ _ _ _ hcp]
  · intro x hxp hxc
    rw [OpBase_AddChild, setNode_node_other _ _ _ _ hxc,
      setNode_node_other _ _ _ _ hxp]

theorem parentReplaceChild_run (h : Heap) (p old new : Nat)
    (hmem : old ∈ (h.node p).children) :
    ParentReplaceChild h p old new = some (prcResult h p old new) := by
  rw [ParentReplaceChild, if_neg (List.ne_nil_of_mem hmem), if_pos hmem]
  rfl

theorem prcResult_node_p (h : Heap) (p old new : Nat) (hpn : p ≠ new) :
    (prcResult h p old new).node p =
      { h.node p with
        children := replaceFirst (h.node p).children old new } := by
  rw [prcResult, setNode_node_other _ _ _ _ hpn, setNode_node_same]

theorem prcResult_node_new (h : Heap) (p old new : Nat) (hpn : p ≠ new) :
    (prcResult h p old new).node new = { h.node new with parent := some p } := by
  rw [prcResult, setNode_node_same, setNode_node_other _ _ _ _ (Ne.symm hpn)]

theorem prcResult_node_other (h : Heap) (p old new x : Nat) (hxp : x ≠ p)
    (hxn : x ≠ new) : (prcResult h p old new).node x = h.node x := by
  rw [prcResult, setNode_node_other _ _ _ _ hxn,
    setNode_node_other _ _ _ _ hxp]

theorem prcResult_plan (h : Heap) (p old new : Nat) :
    (prcResult h p old new).plan = h.plan := rfl

/-- C2: `push_below(a, b)` makes `b` adopt `a`'s owning plan and makes `a`
a child of `b`; if `a` was the plan root, `b` becomes the new plan root,
otherwise `b` takes `a`'s former position among `a`'s former parent's
children (order of the other siblings preserved) and `b`'s parent becomes
that former parent. -/
theorem C2_push_below (h : Heap) (a b : Nat) (hab : a ≠ b) :
    ((h.node a).parent = none →
      ∃ h', ExecutionPlan_PushBelow h a b = some h'
        ∧ (h'.node b).plan = (h.node a).plan
        ∧ (h'.node a).parent = some b
        ∧ (h'.node b).children = (h.node b).children ++ [a]
        ∧ (h'.plan ((h.node a).plan)).root = some b)
    ∧ (∀ p, (h.node a).parent = some p → a ∈ (h.node p).children →
        p ≠ a → p ≠ b →
      ∃ h', ExecutionPlan_PushBelow h a b = some h'
        ∧ (h'.node b).plan = (h.node a).plan
        ∧ (h'.node a).parent = some b
        ∧ (h'.node b).children = (h.node b).children ++ [a]
        ∧ (h'.node b).parent = some p
        ∧ (h'.node p).children =
            (h.node p).children.set ((h.node p).children.indexOf a) b) := by
  have hba : b ≠ a := Ne.symm hab
  have ea : (setNode h b { h.node b with plan := (h.node a).plan }).node a
      = h.node a := setNode_node_other _ _ _ _ hab
  have eb : (setNode h b { h.node b with plan := (h.node a).plan }).node b
      = { h.node b with plan := (h.node a).plan } := setNode_node_same _ _ _
  constructor
  · intro hnone
    have hrun : ExecutionPlan_PushBelow h a b =
        some (setPlan
          (OpBase_AddChild
            (setNode h b { h.node b with plan := (h.node a).plan }) b a)
          ((h.node a).plan)
          { (OpBase_AddChild
              (setNode h b { h.node b with plan := (h.node a).plan }) b
              a).plan ((h.node a).plan)
            with root := some b }) := by
      simp only [ExecutionPlan_PushBelow, ea, hnone]
    obtain ⟨hc, hpar2, hplan2, hparc, hchc, hplc, hoth, hpl⟩ :=
      addChild_spec (setNode h b { h.node b with plan := (h.node a).plan })
        b a hba
    refine ⟨_, hrun, ?_, ?_, ?_, ?_⟩
    · rw [setPlan_node, hplan2, eb]
    · rw [setPlan_node, hparc]
    · rw [setPlan_node, hc, eb]
    · simp [setPlan]
  · intro p hsome hmem hpa hpb
    have hmem1 : a ∈ ((setNode h b
        { h.node b with plan := (h.node a).plan }).node p).children := by
      rw [setNode_node_other _ _ _ _ hpb]
      exact hmem
    have hrun : ExecutionPlan_PushBelow h a b =
        some (OpBase_AddChild
          (prcResult (setNode h b { h.node b with plan := (h.node a).plan })
            p a b) b a) := by
      simp only [ExecutionPlan_PushBelow, ea, hsome]
      rw [parentReplaceChild_run _ _ _ _ hmem1]
    obtain ⟨hc, hpar2, hplan2, hparc, hchc, hchpl, hoth, hpl⟩ :=
      addChild_spec
        (prcResult (setNode h b { h.node b with plan := (h.node a).plan })
          p a b) b a hba
    refine ⟨_, hrun, ?_, ?_, ?_, ?_, ?_⟩
    · rw [hplan2, prcResult_node_new _ _ _ _ hpb, eb]
    · rw [hparc]
    · rw [hc, prcResult_node_new _ _ _ _ hpb, eb]
    · rw [hpar2, prcResult_node_new _ _ _ _ hpb]
    · rw [hoth p hpb hpa, prcResult_node_p _ _ _ _ hpb,
        setNode_node_other _ _ _ _ hpb, replaceFirst_eq_set]

/-- Witness for C2: pushing the fresh operation 6 below node 2 (a non-root
child of node 1) re-plans node 6 to plan 0, makes node 2 its child, and
puts node 6 in node 2's old slot under node 1. -/
theorem C2_push_below_witness :
    (ExecutionPlan_PushBelow c2Heap 2 6).map
        (fun h' => ((h'.node 6).plan, (h'.node 2).parent,
          (h'.node 6).children, (h'.node 6).parent, (h'.node 1).children)) =
      some (0, some 6, [2], some 1, [6, 3]) := by
  obtain ⟨h', hrun, h1, h2, h3, h4, h5⟩ :=
    (C2_push_below c2Heap 2 6 (by decide)).2 1 (by decide) (by decide)
      (by decide) (by decide)
  rw [hrun]
  simp only [Option.map_some', h1, h2, h3, h4, h5]
  decide

/-! ## `ExecutionPlan_NewRoot` -/

theorem chainTail_children (h : Heap) : ∀ (fuel x t : Nat),
    chainTail h fuel x = some t → (h.node t).children = []
  | 0, x, t => by
    intro hc
    rw [chainTail] at hc
    split at hc
    · rename_i he
      cases hc
      exact he
    · cases hc
  | fuel + 1, x, t => by
    intro hc
    rw [chainTail] at hc
    split at hc
    · rename_i he
      cases hc
      exact he
    · exact chainTail_children h fuel _ t hc

/-- C8 (amended): `new_root(old_root, new_root)` asserts that both
operations are rootless and that `new_root` *itself* has at most one child
(the assert runs once, before the walk; deeper branching is not rejected).
Under those conditions it walks first-child links to the deepest descendant
`t` and appends `old_root` as a child of `t`, touching no other node. -/
theorem C8_new_root (h : Heap) (fuel oldRoot newRoot t : Nat)
    (hold : (h.node oldRoot).parent = none)
    (hnew : (h.node newRoot).parent = none)
    (hhead : (h.node newRoot).children.length ≤ 1)
    (htail : chainTail h fuel newRoot = some t)
    (hto : t ≠ oldRoot) :
    ExecutionPlan_NewRoot h fuel oldRoot newRoot =
        some (OpBase_AddChild h t oldRoot)
      ∧ (h.node t).children = []
      ∧ ((OpBase_AddChild h t oldRoot).node t).children = [oldRoot]
      ∧ ((OpBase_AddChild h t oldRoot).node oldRoot).parent = some t
      ∧ (∀ x, x ≠ t → x ≠ oldRoot →
          (OpBase_AddChild h t oldRoot).node x = h.node x) := by
  have hrun : ExecutionPlan_NewRoot h fuel oldRoot newRoot =
      some (OpBase_AddChild h t oldRoot) := by
    rw [ExecutionPlan_NewRoot, if_pos ⟨hold, hnew⟩, if_pos hhead, htail]
  have hleaf : (h.node t).children = [] :=
    chainTail_children h fuel newRoot t htail
  obtain ⟨hc, _, _, hparc, _, _, hoth, _⟩ := addChild_spec h t oldRoot hto
  refine ⟨hrun, hleaf, ?_, hparc, hoth⟩
  rw [hc, hleaf]
  rfl

/-- Witness for C8 (amended): grafting the linear chain `1 → 2 → 3` above
the rootless node 0 attaches node 0 under the deepest descendant 3. -/
theorem C8_new_root_witness :
    ExecutionPlan_NewRoot c8Heap 10 0 1 = some (OpBase_AddChild c8Heap 3 0)
    ∧ ((OpBase_AddChild c8Heap 3 0).node 3).children = [0]
    ∧ ((OpBase_AddChild c8Heap 3 0).node 0).parent = some 3 :=
  have h := C8_new_root c8Heap 10 0 1 3 (by decide) (by decide) (by decide)
    (by decide) (by decide)
  ⟨h.1, h.2.2.1, h.2.2.2.1⟩

/-- C8 counterexample: the chain rooted at node 1 branches at node 2 (two
children), yet the call is *not* rejected — the assert only covers node 1
itself — and the old root is silently attached below the first-child path
(under node 3).  This refutes "a call on a chain containing any branching
node is rejected or asserted against". -/
theorem C8_counterexample :
    (c8BranchHeap.node 2).children.length = 2
    ∧ (ExecutionPlan_NewRoot c8BranchHeap 10 0 1).isSome = true
    ∧ (ExecutionPlan_NewRoot c8BranchHeap 10 0 1).map
        (fun h' => ((h'.node 3).children, (h'.node 0).parent)) =
      some ([0], some 3) := by decide
